import Mathlib

/-!
# A shallow embedding of the `nix_autobuild` build-dispatch engine

Definitions are translated from the Rust sources:
* `src/common/mod.rs` (the `ARCHITECTURES` table, configuration shapes),
* `src/backend/mod.rs` (repository worker, commit registry, target
  enumerator, build executor),
* `src/main.rs` (the binary entry point and its startup validation).

Statuses, status traces and external-process outcomes are modelled
explicitly; all functions are executable.
-/

namespace NixAutobuild

/-- The 24 canonical architecture tags, from `ARCHITECTURES` in
`src/common/mod.rs`. -/
def ARCHITECTURES : List String :=
  ["aarch64-darwin", "aarch64-linux", "armv5tel-linux", "armv6l-linux",
   "armv7a-linux", "armv7l-linux", "i686-linux", "loongarch64-linux",
   "m68k-linux", "microblazeel-linux", "microblaze-linux", "mips64el-linux",
   "mips64-linux", "mipsel-linux", "mips-linux", "powerpc64le-linux",
   "powerpc64-linux", "powerpc-linux", "riscv32-linux", "riscv64-linux",
   "s390-linux", "s390x-linux", "x86_64-darwin", "x86_64-linux"]

/-- The 4-entry architecture table of the binary entry point,
`ARCHITECTURES` in `src/main.rs`. -/
def MAIN_ARCHITECTURES : List String :=
  ["aarch64-linux", "x86_64-linux", "x86_64-darwin", "aarch64-darwin"]

/-! ## Architecture extraction (`Package::from_map` in `src/backend/mod.rs`)

The Rust closure is
`{ let s = &path[path.find('.')? + 1..];
   ARCHITECTURES.into_iter().find(|&a| s.starts_with(a)) }().unwrap_or("unknown")`.
We model `&str` contents as `List Char`. -/

/-- Rust `&path[path.find('.')? + 1..]`: the suffix of `path` strictly after its
first `'.'`, or `none` when `path` has no `'.'`. -/
def afterFirstDot : List Char → Option (List Char)
  | [] => none
  | c :: cs => if c = '.' then some cs else afterFirstDot cs

/-- The architecture tag of a Derivation path, translated from the closure in
`Package::from_map`: the first entry of `ARCHITECTURES` that is a prefix of
the path's suffix after the first dot, else `"unknown"`. -/
def archOfPath (path : String) : String :=
  match afterFirstDot path.data with
  | none => "unknown"
  | some s => ((ARCHITECTURES.find? (fun a => a.data.isPrefixOf s)).getD "unknown")

/-- The path segment between the first two `'.'` separators of `path`
(the spec's wording): everything after the first dot up to the next dot;
empty when `path` has no dot. -/
def segmentAfterFirstDot (path : String) : List Char :=
  match afterFirstDot path.data with
  | none => []
  | some s => s.takeWhile (fun c => c ≠ '.')

/-- Written to the spec's words (§3, C8): the longest architecture tag that
is a prefix of the segment between the first two dots, else `"unknown"`. -/
def specArchOfPath (path : String) : String :=
  match (ARCHITECTURES.filter
      (fun a => a.data.isPrefixOf (segmentAfterFirstDot path))).argmax
      (fun a => a.length) with
  | some a => a
  | none => "unknown"

example : archOfPath "packages.x86_64-linux.hello" = "x86_64-linux" := by decide
example : archOfPath "packages.wasm32-linux.hello" = "unknown" := by decide
example : archOfPath "nodots" = "unknown" := by decide
example : specArchOfPath "packages.x86_64-linux.hello" = "x86_64-linux" := by decide

/-- No canonical architecture tag contains a dot. -/
lemma arch_no_dot : ∀ a ∈ ARCHITECTURES, ∀ c ∈ a.data, c ≠ '.' := by decide

/-- No canonical architecture tag is a strict or non-strict prefix of a
different one. -/
lemma arch_pairwise_disjoint : ARCHITECTURES.Pairwise
    (fun a b => a.data.isPrefixOf b.data = false ∧ b.data.isPrefixOf a.data = false) := by
  decide

/-- For a dot-free list, being a prefix of `s.takeWhile (· ≠ '.')` is the
same as being a prefix of `s`. -/
lemma prefix_takeWhile_iff (l s : List Char) (h : ∀ c ∈ l, c ≠ '.') :
    l <+: s.takeWhile (fun c => c ≠ '.') ↔ l <+: s := by
  constructor
  · intro hp
    refine hp.trans ?_
    exact List.takeWhile_prefix _
  · rintro ⟨t, rfl⟩
    rw [List.takeWhile_append_of_pos (by simpa using h)]
    exact List.prefix_append _ _
lemma arch_pred_eq (s : List Char) : ∀ a ∈ ARCHITECTURES,
    (a.data.isPrefixOf (s.takeWhile (fun c => c ≠ '.')))
      = (a.data.isPrefixOf s) := by
  intro a ha
  have hdot : ∀ c ∈ a.data, c ≠ '.' := arch_no_dot a ha
  have hiff := prefix_takeWhile_iff a.data s hdot
  rw [← List.isPrefixOf_iff_prefix, ← List.isPrefixOf_iff_prefix] at hiff
  exact Bool.eq_iff_iff.mpr hiff

/-- At most one canonical tag can be a prefix of any given string. -/
lemma filter_prefix_length_le_one (s : List Char) :
    (ARCHITECTURES.filter (fun a => a.data.isPrefixOf s)).length ≤ 1 := by
  have key : ∀ (l : List String), l.Pairwise
      (fun a b => a.data.isPrefixOf b.data = false ∧ b.data.isPrefixOf a.data = false) →
      (l.filter (fun a => a.data.isPrefixOf s)).length ≤ 1 := by
    intro l hl
    induction l with
    | nil => simp
    | cons a l ih =>
      rw [List.pairwise_cons] at hl
      by_cases hpa : a.data.isPrefixOf s
      · have hnil : l.filter (fun a => a.data.isPrefixOf s) = [] := by
          apply List.filter_eq_nil_iff.mpr
          intro b hb hpb
          have hprefa : a.data <+: s := List.isPrefixOf_iff_prefix.mp hpa
          have hprefb : b.data <+: s := List.isPrefixOf_iff_prefix.mp (by simpa using hpb)
          have hq := hl.1 b hb
          rcases List.prefix_or_prefix_of_prefix hprefa hprefb with hab | hba
          · rw [← List.isPrefixOf_iff_prefix] at hab
            simp [hq.1] at hab
          · rw [← List.isPrefixOf_iff_prefix] at hba
            simp [hq.2] at hba
        simp [List.filter_cons, hpa, hnil]
      · simp only [List.filter_cons, hpa]
        exact ih hl.2
  exact key ARCHITECTURES arch_pairwise_disjoint

/-- C8. For every Derivation target path, the architecture tag computed by
`Package::from_map` (first entry of `ARCHITECTURES` that is a prefix of the
path's suffix after the first dot, default `"unknown"`) equals the spec's
description: the longest canonical tag that is a prefix of the segment
between the first two `'.'` separators, default `"unknown"`. -/
theorem arch_tag_matches_spec (path : String) :
    archOfPath path = specArchOfPath path := by
  unfold archOfPath specArchOfPath segmentAfterFirstDot
  cases hd : afterFirstDot path.data with
  | none =>
    have hnil : ARCHITECTURES.filter
        (fun a => a.data.isPrefixOf ([] : List Char)) = [] := by decide
    simp [hnil, List.argmax_nil]
  | some s =>
    have hcong : ARCHITECTURES.filter
          (fun a => a.data.isPrefixOf (s.takeWhile (fun c => c ≠ '.')))
        = ARCHITECTURES.filter (fun a => a.data.isPrefixOf s) :=
      List.filter_congr (arch_pred_eq s)
    have hfind : ARCHITECTURES.find? (fun a => a.data.isPrefixOf s)
        = (ARCHITECTURES.filter (fun a => a.data.isPrefixOf s)).head? :=
      (List.filter_head? _ _).symm
    dsimp only
    rw [hcong, hfind]
    have hlen := filter_prefix_length_le_one s
    cases hm : ARCHITECTURES.filter (fun a => a.data.isPrefixOf s) with
    | nil => simp [List.argmax_nil]
    | cons a rest =>
      rw [hm] at hlen
      have hrest : rest = [] := by
        cases rest with
        | nil => rfl
        | cons b r => simp at hlen
      subst hrest
      simp [List.argmax_singleton]

/-! ## Manifest trees and the target enumerator

`serde_json::Value` is modelled by `JVal`; an object's fields are an
association list in the order the map iterates them.  Targets mirror the
`Package` and `NixosConfigPackage` structs of `src/common/package.rs`
(the mutable `status` field and the `commit` back-reference are modelled
separately, by the trace/state functions below). -/

inductive JVal where
  | str (s : String)
  | num (n : Int)
  | bool (b : Bool)
  | null
  | arr (xs : List JVal)
  | obj (fields : List (String × JVal))

/-- Is this value an object (Rust `Value::as_object` succeeds)? -/
def JVal.isObj : JVal → Bool
  | .obj _ => true
  | _ => false

structure Package where
  description : String
  name : String
  pkg_type : String
  arch : String
  flake_url : String
  path : String
deriving DecidableEq

structure NixosConfigPackage where
  path : String
  pkg_type : String
  flake_url : String
deriving DecidableEq

inductive PackageEnum where
  | Derivation (p : Package)
  | NixosConfig (p : NixosConfigPackage)
deriving DecidableEq

/-- Rust `map.get(k)?.as_str()?`: the value of key `k` when present and a
string. -/
def mapGetStr (fields : List (String × JVal)) (k : String) : Option String :=
  match fields.lookup k with
  | some (JVal.str s) => some s
  | _ => none

/-- Translation of `Package::from_map` (src/backend/mod.rs): requires `description`,
`name`, `type` present as strings; the architecture is extracted from the
path; the target flake URL is `<commit.flake_url>#<path>`. -/
def packageFromMap (fields : List (String × JVal)) (path : String)
    (commitFlakeUrl : String) : Option Package := do
  let d ← mapGetStr fields "description"
  let n ← mapGetStr fields "name"
  let t ← mapGetStr fields "type"
  pure { description := d, name := n, pkg_type := t,
         arch := archOfPath path,
         flake_url := commitFlakeUrl ++ "#" ++ path, path := path }

/-- Translation of `NixosConfigPackage::from_map` (src/backend/mod.rs): requires the path
to start with `nixosConfigurations` and `type == "nixos-configuration"`;
the path is rewritten to `<path>.config.system.build.toplevel`. -/
def nixosConfigFromMap (fields : List (String × JVal)) (path : String)
    (commitFlakeUrl : String) : Option NixosConfigPackage :=
  if ¬ path.startsWith "nixosConfigurations" then none
  else match mapGetStr fields "type" with
    | none => none
    | some t =>
      if t ≠ "nixos-configuration" then none
      else
        let path2 := path ++ ".config.system.build.toplevel"
        some { pkg_type := t, flake_url := commitFlakeUrl ++ "#" ++ path2,
               path := path2 }

/-- Path extension in `_parse_pkgs_value`: `path.key`, with no leading dot
for an empty parent path. -/
def extendPath (path key : String) : String :=
  if path.isEmpty then key else path ++ "." ++ key

mutual

/-- Translation of `CommitInfo::_parse_pkgs_value` (src/backend/mod.rs), as a function of
the subtree value: Derivation match first, else SystemConfig match, else
recurse into object children in field order; non-objects yield nothing. -/
def parseVal (commitFlakeUrl : String) : JVal → String → List PackageEnum
  | JVal.obj fields, path =>
    match packageFromMap fields path commitFlakeUrl with
    | some pkg => [PackageEnum.Derivation pkg]
    | none =>
      match nixosConfigFromMap fields path commitFlakeUrl with
      | some n => [PackageEnum.NixosConfig n]
      | none => parseChildren commitFlakeUrl fields path
  | _, _ => []

/-- The recursion of `_parse_pkgs_value` over an object's children. -/
def parseChildren (commitFlakeUrl : String) :
    List (String × JVal) → String → List PackageEnum
  | [], _ => []
  | (k, v) :: rest, path =>
    (match v with
     | JVal.obj f => parseVal commitFlakeUrl (JVal.obj f) (extendPath path k)
     | _ => []) ++ parseChildren commitFlakeUrl rest path

end

/-- Unfolding equation for `parseVal` on an object. -/
theorem parseVal_obj (cu : String) (fields : List (String × JVal)) (path : String) :
    parseVal cu (JVal.obj fields) path =
      match packageFromMap fields path cu with
      | some pkg => [PackageEnum.Derivation pkg]
      | none =>
        match nixosConfigFromMap fields path cu with
        | some n => [PackageEnum.NixosConfig n]
        | none => parseChildren cu fields path := rfl

theorem parseChildren_nil (cu path : String) : parseChildren cu [] path = [] := rfl

theorem parseChildren_cons_obj (cu k : String) (f : List (String × JVal))
    (rest : List (String × JVal)) (path : String) :
    parseChildren cu ((k, JVal.obj f) :: rest) path =
      parseVal cu (JVal.obj f) (extendPath path k) ++ parseChildren cu rest path := rfl

theorem parseChildren_cons_of_not_obj (cu k : String) (v : JVal)
    (rest : List (String × JVal)) (path : String) (h : v.isObj = false) :
    parseChildren cu ((k, v) :: rest) path = parseChildren cu rest path := by
  cases v <;> simp [JVal.isObj] at h ⊢ <;> rfl

/-- The spec's Derivation predicate: keys `description`, `name`, `type` all
present as strings. -/
def derivPred (fields : List (String × JVal)) : Bool :=
  (mapGetStr fields "description").isSome && (mapGetStr fields "name").isSome
    && (mapGetStr fields "type").isSome

/-- The spec's SystemConfig predicate: dotted path begins with
`nixosConfigurations` and the subtree has `type == "nixos-configuration"`. -/
def nixosPred (fields : List (String × JVal)) (path : String) : Bool :=
  path.startsWith "nixosConfigurations"
    && (mapGetStr fields "type" == some "nixos-configuration")

lemma packageFromMap_isSome_iff (fields : List (String × JVal)) (path cu : String) :
    (packageFromMap fields path cu).isSome = derivPred fields := by
  unfold packageFromMap derivPred
  cases mapGetStr fields "description" <;>
    cases mapGetStr fields "name" <;>
    cases mapGetStr fields "type" <;> simp

lemma nixosConfigFromMap_isSome_iff (fields : List (String × JVal)) (path cu : String) :
    (nixosConfigFromMap fields path cu).isSome = nixosPred fields path := by
  unfold nixosConfigFromMap nixosPred
  by_cases hs : path.startsWith "nixosConfigurations"
  · cases ht : mapGetStr fields "type" with
    | none => simp [hs, ht]
    | some t =>
      by_cases het : t = "nixos-configuration" <;> simp [hs, ht, het]
  · simp [hs]

lemma packageFromMap_fields {fields : List (String × JVal)} {path cu : String}
    {pkg : Package} (h : packageFromMap fields path cu = some pkg) :
    pkg.path = path ∧ pkg.arch = archOfPath path
      ∧ pkg.flake_url = cu ++ "#" ++ path := by
  unfold packageFromMap at h
  cases hd : mapGetStr fields "description" with
  | none => rw [hd] at h; simp at h
  | some d =>
    rw [hd] at h
    cases hn : mapGetStr fields "name" with
    | none => rw [hn] at h; simp at h
    | some nm =>
      rw [hn] at h
      cases ht : mapGetStr fields "type" with
      | none => rw [ht] at h; simp at h
      | some t =>
        rw [ht] at h
        simp only [Option.bind_eq_bind, Option.some_bind, Option.pure_def, Option.some_inj] at h
        subst h
        exact ⟨rfl, rfl, rfl⟩

lemma nixosConfigFromMap_fields {fields : List (String × JVal)} {path cu : String}
    {n : NixosConfigPackage} (h : nixosConfigFromMap fields path cu = some n) :
    n.path = path ++ ".config.system.build.toplevel"
      ∧ n.pkg_type = "nixos-configuration"
      ∧ n.flake_url = cu ++ "#" ++ n.path := by
  unfold nixosConfigFromMap at h
  by_cases hs : path.startsWith "nixosConfigurations"
  · rw [if_neg (by simpa using hs)] at h
    cases ht : mapGetStr fields "type" with
    | none => rw [ht] at h; simp at h
    | some t =>
      rw [ht] at h
      by_cases het : t = "nixos-configuration"
      · subst het
        simp only [] at h
        rw [if_neg (by simp)] at h
        rw [Option.some_inj] at h
        subst h
        exact ⟨rfl, rfl, rfl⟩
      · simp only [] at h
        rw [if_pos het] at h
        simp at h
  · rw [if_pos hs] at h; simp at h

/-- Lemma: `parseChildren` is the concatenation, in field order, of the recursive
results on object children; non-object children contribute nothing. -/
lemma parseChildren_eq_join (cu : String) (fields : List (String × JVal))
    (path : String) :
    parseChildren cu fields path =
      (fields.map (fun kv =>
        match kv.2 with
        | JVal.obj f => parseVal cu (JVal.obj f) (extendPath path kv.1)
        | _ => [])).flatten := by
  induction fields with
  | nil => simp [parseChildren_nil]
  | cons kv rest ih =>
    obtain ⟨k, v⟩ := kv
    cases v with
    | obj f => rw [parseChildren_cons_obj]; simp [ih]
    | str s => rw [parseChildren_cons_of_not_obj cu k (JVal.str s) rest path rfl]; simp [ih]
    | num m => rw [parseChildren_cons_of_not_obj cu k (JVal.num m) rest path rfl]; simp [ih]
    | bool b => rw [parseChildren_cons_of_not_obj cu k (JVal.bool b) rest path rfl]; simp [ih]
    | null => rw [parseChildren_cons_of_not_obj cu k JVal.null rest path rfl]; simp [ih]
    | arr xs => rw [parseChildren_cons_of_not_obj cu k (JVal.arr xs) rest path rfl]; simp [ih]

/-- C7. The enumerator emits exactly one Derivation at the current dotted
path when `description`, `name` and `type` are present as strings (and
stops recursing); exactly one SystemConfig — with the path rewritten to
`<path>.config.system.build.toplevel` — when the Derivation predicate did
not match, the path begins with `nixosConfigurations` and
`type == "nixos-configuration"`; otherwise it recurses into object children
in key order, and non-object children are ignored. -/
theorem enumerator_classification (cu : String) (fields : List (String × JVal))
    (path : String) :
    (derivPred fields = true →
      ∃ pkg, packageFromMap fields path cu = some pkg ∧ pkg.path = path ∧
        parseVal cu (JVal.obj fields) path = [PackageEnum.Derivation pkg])
    ∧ (derivPred fields = false → nixosPred fields path = true →
      ∃ n, nixosConfigFromMap fields path cu = some n ∧
        n.path = path ++ ".config.system.build.toplevel" ∧
        parseVal cu (JVal.obj fields) path = [PackageEnum.NixosConfig n])
    ∧ (derivPred fields = false → nixosPred fields path = false →
      parseVal cu (JVal.obj fields) path =
        (fields.map (fun kv =>
          match kv.2 with
          | JVal.obj f => parseVal cu (JVal.obj f) (extendPath path kv.1)
          | _ => [])).flatten)
    ∧ (∀ v : JVal, v.isObj = false → parseVal cu v path = []) := by
  refine ⟨?_, ?_, ?_, ?_⟩
  · intro hderiv
    have hsome : (packageFromMap fields path cu).isSome := by
      rw [packageFromMap_isSome_iff]; exact hderiv
    obtain ⟨pkg, hpkg⟩ := Option.isSome_iff_exists.mp hsome
    exact ⟨pkg, hpkg, (packageFromMap_fields hpkg).1, by rw [parseVal_obj, hpkg]⟩
  · intro hderiv hnixos
    have hnone : packageFromMap fields path cu = none := by
      have := packageFromMap_isSome_iff fields path cu
      rw [hderiv] at this
      exact Option.not_isSome_iff_eq_none.mp (by simp [this])
    have hsome : (nixosConfigFromMap fields path cu).isSome := by
      rw [nixosConfigFromMap_isSome_iff]; exact hnixos
    obtain ⟨n, hn⟩ := Option.isSome_iff_exists.mp hsome
    exact ⟨n, hn, (nixosConfigFromMap_fields hn).1, by rw [parseVal_obj, hnone, hn]⟩
  · intro hderiv hnixos
    have hnone : packageFromMap fields path cu = none := by
      have := packageFromMap_isSome_iff fields path cu
      rw [hderiv] at this
      exact Option.not_isSome_iff_eq_none.mp (by simp [this])
    have hnone2 : nixosConfigFromMap fields path cu = none := by
      have := nixosConfigFromMap_isSome_iff fields path cu
      rw [hnixos] at this
      exact Option.not_isSome_iff_eq_none.mp (by simp [this])
    rw [parseVal_obj, hnone, hnone2, parseChildren_eq_join]
  · intro v hv
    cases v <;> simp [JVal.isObj] at hv ⊢ <;> rfl

/-- The manifest subtree of scenario S1 at path
`packages.x86_64-linux.hello`. -/
def s1helloFields : List (String × JVal) :=
  [("description", JVal.str "d"), ("name", JVal.str "hello"),
   ("type", JVal.str "derivation")]

theorem enumerator_classification_witness :
    derivPred s1helloFields = true ∧
    ∃ pkg, packageFromMap s1helloFields "packages.x86_64-linux.hello"
        "git+https://h/r?rev=abc" = some pkg ∧
      pkg.path = "packages.x86_64-linux.hello" ∧
      parseVal "git+https://h/r?rev=abc" (JVal.obj s1helloFields)
        "packages.x86_64-linux.hello" = [PackageEnum.Derivation pkg] :=
  ⟨by decide,
   (enumerator_classification "git+https://h/r?rev=abc" s1helloFields
     "packages.x86_64-linux.hello").1 (by decide)⟩


/-! ## Build execution (`PackageBase::build_static`, `Package::build`,
`NixosConfigPackage::build` in `src/backend/mod.rs`)

A build is modelled as the sequence of its observable events: status
writes, semaphore acquire/release, and the external `nix build`
invocation.  `PackageBuildStatus` mirrors the enum of
`src/common/package.rs`; the `WaitingForBuild` variant is the one written
by `build_static`. -/

inductive PackageBuildStatus where
  | Idle
  | WaitingForBuild
  | Building
  | UnsupportedArchitecture (arch : String)
  | Success (outPath : String)
  | Failed (message : String)
deriving DecidableEq

/-- Rust `str::trim`: the string with leading and trailing whitespace
removed. -/
def rustTrim (s : String) : String :=
  ⟨((s.data.dropWhile Char.isWhitespace).reverse.dropWhile
      Char.isWhitespace).reverse⟩

example : rustTrim "  a b\n" = "a b" := by decide
example : rustTrim "abc" = "abc" := by decide

/-- Outcome of one `std::process::Command::output()` call.  `spawnError` is
the `?` failure of `output()` itself; `completed` carries
`status.code()` (`none` when signal-killed) and the lossily decoded stdout
and stderr. -/
inductive RunResult where
  | spawnError (message : String)
  | completed (exitCode : Option Int) (stdout stderr : String)
deriving DecidableEq

/-- Rust `output.status.code().unwrap_or(-1)`. -/
def effectiveExitCode (code : Option Int) : Int := code.getD (-1)

/-- The value `build_static` returns: on exit code 0 the trimmed stdout,
otherwise the error — the (untrimmed) lossy stderr, or the spawn error. -/
def buildStaticResult (r : RunResult) : Except String String :=
  match r with
  | .spawnError m => .error m
  | .completed code sout serr =>
    if effectiveExitCode code ≠ 0 then .error serr
    else .ok (rustTrim sout)

inductive BuildEvent where
  | setStatus (s : PackageBuildStatus)
  | acquire
  | release
  | runBuild (flakeUrl : String)
deriving DecidableEq

/-- The events of `PackageBase::build_static`: write `WaitingForBuild`,
acquire a semaphore permit, write `Building`, run
`nix build --no-link --print-out-paths <url>`, release the permit
(`Semaphore::execute` releases on every exit path of the closure). -/
def buildStaticTrace (flakeUrl : String) : List BuildEvent :=
  [.setStatus .WaitingForBuild, .acquire, .setStatus .Building,
   .runBuild flakeUrl, .release]

/-- The events of the task spawned by `Package::build`: write `Building`,
check the architecture against `supported_architectures`; a supported
architecture runs `build_static` and writes its result as
`Success`/`Failed`, an unsupported one writes
`UnsupportedArchitecture(arch)` and returns without building. -/
def packageBuildTrace (pkg : Package) (supported : List String)
    (r : RunResult) : List BuildEvent :=
  .setStatus .Building ::
  (if supported.contains pkg.arch then
    buildStaticTrace pkg.flake_url ++
    [.setStatus (match buildStaticResult r with
      | .ok p => .Success p
      | .error e => .Failed e)]
  else
    [.setStatus (.UnsupportedArchitecture pkg.arch)])

/-- The events of the task spawned by `NixosConfigPackage::build` (no
architecture check). -/
def nixosBuildTrace (n : NixosConfigPackage) (r : RunResult) : List BuildEvent :=
  .setStatus .Building ::
  (buildStaticTrace n.flake_url ++
   [.setStatus (match buildStaticResult r with
     | .ok p => .Success p
     | .error e => .Failed e)])

/-- The successive values written to the target's status field. -/
def statusWrites (tr : List BuildEvent) : List PackageBuildStatus :=
  tr.filterMap (fun e => match e with
    | .setStatus s => some s
    | _ => none)

/-- A fixed supported-architecture Derivation target used as the concrete
input for the executor claims. -/
def demoPkg : Package :=
  { description := "d", name := "hello", pkg_type := "derivation",
    arch := "x86_64-linux",
    flake_url := "git+https://h/r?rev=abc#packages.x86_64-linux.hello",
    path := "packages.x86_64-linux.hello" }

/-- The same target with an architecture outside the allowlist. -/
def demoPkgUnknownArch : Package :=
  { demoPkg with arch := "unknown" }

/-- C3. At the build of a supported-architecture target the code writes
`Building` (first statement of `Package::build`) before the semaphore
permit is acquired inside `build_static`: the first event of the trace is
already a `Building` write, the acquire only comes at index 2, and
`WaitingForBuild` is written after that first `Building`, not before it.
This contradicts the claim (§9 of the spec mandates the claimed order and
flags this code path). -/
theorem building_written_before_acquire :
    (packageBuildTrace demoPkg ["x86_64-linux"]
        (RunResult.completed (some 0) "/nix/store/abc\n" "")).head?
      = some (BuildEvent.setStatus .Building)
    ∧ (packageBuildTrace demoPkg ["x86_64-linux"]
        (RunResult.completed (some 0) "/nix/store/abc\n" "")).take 3
      = [BuildEvent.setStatus .Building, BuildEvent.setStatus .WaitingForBuild,
         BuildEvent.acquire] := by
  constructor <;> decide

/-- C5 counterexample: an unsupported-architecture Derivation does *not*
transition directly to `UnsupportedArchitecture` — the first status write
of its build task is `Building`. -/
theorem unsupported_arch_not_direct :
    (statusWrites (packageBuildTrace demoPkgUnknownArch ["x86_64-linux"]
        (RunResult.completed (some 0) "" ""))).head?
      = some PackageBuildStatus.Building
    ∧ PackageBuildStatus.Building
        ≠ PackageBuildStatus.UnsupportedArchitecture "unknown" := by
  constructor <;> decide

/-- C5 (amended). For every Derivation target whose architecture is not in
`supported_architectures`, no external build is invoked and the final
status write — after a transient `Building` written at task start — is
`UnsupportedArchitecture(arch)`, which is terminal. -/
theorem unsupported_arch_skips_build (pkg : Package) (supported : List String)
    (r : RunResult) (h : supported.contains pkg.arch = false) :
    packageBuildTrace pkg supported r
      = [BuildEvent.setStatus .Building,
         BuildEvent.setStatus (.UnsupportedArchitecture pkg.arch)]
    ∧ (∀ e ∈ packageBuildTrace pkg supported r, ∀ u, e ≠ BuildEvent.runBuild u)
    ∧ (statusWrites (packageBuildTrace pkg supported r)).getLast?
      = some (PackageBuildStatus.UnsupportedArchitecture pkg.arch) := by
  have htr : packageBuildTrace pkg supported r
      = [BuildEvent.setStatus .Building,
         BuildEvent.setStatus (.UnsupportedArchitecture pkg.arch)] := by
    unfold packageBuildTrace
    rw [if_neg (by intro hc; rw [h] at hc; exact Bool.noConfusion hc)]
  refine ⟨htr, ?_, ?_⟩
  · rw [htr]
    intro e he u
    simp only [List.mem_cons, List.mem_singleton] at he
    rcases he with rfl | rfl | he <;> simp_all
  · rw [htr]; rfl

theorem unsupported_arch_skips_build_witness :
    (["x86_64-linux"] : List String).contains demoPkgUnknownArch.arch = false
    ∧ packageBuildTrace demoPkgUnknownArch ["x86_64-linux"]
        (RunResult.completed (some 0) "" "")
      = [BuildEvent.setStatus .Building,
         BuildEvent.setStatus (.UnsupportedArchitecture "unknown")] :=
  ⟨by decide,
   (unsupported_arch_skips_build demoPkgUnknownArch
     ["x86_64-linux"] (RunResult.completed (some 0) "" "") (by decide)).1⟩

/-- C9 counterexample: on a non-zero exit the recorded `Failed` message is
the raw lossy stderr, not the trimmed stderr as claimed — `build_static`
trims stdout but returns `stderr` untrimmed. -/
theorem failed_message_not_trimmed :
    (statusWrites (packageBuildTrace demoPkg ["x86_64-linux"]
        (RunResult.completed (some 1) "" " build failed\n"))).getLast?
      = some (PackageBuildStatus.Failed " build failed\n")
    ∧ rustTrim " build failed\n" ≠ " build failed\n" := by
  constructor <;> decide

/-- C9 (amended). For every build invocation of a supported-architecture
target: exit code 0 writes `Success(trimmed stdout)` as the final status;
any other exit code writes `Failed(stderr)` where `stderr` is the raw
lossy stderr string, not trimmed. -/
theorem build_exit_semantics (pkg : Package) (supported : List String)
    (code : Option Int) (sout serr : String)
    (hsup : supported.contains pkg.arch = true) :
    (code = some 0 →
      (statusWrites (packageBuildTrace pkg supported
          (RunResult.completed code sout serr))).getLast?
        = some (PackageBuildStatus.Success (rustTrim sout)))
    ∧ (effectiveExitCode code ≠ 0 →
      (statusWrites (packageBuildTrace pkg supported
          (RunResult.completed code sout serr))).getLast?
        = some (PackageBuildStatus.Failed serr)) := by
  unfold packageBuildTrace
  rw [if_pos hsup]
  constructor
  · intro h0
    subst h0
    simp [buildStaticTrace, buildStaticResult, statusWrites, effectiveExitCode]
  · intro hne
    simp [buildStaticTrace, buildStaticResult, statusWrites, hne]

theorem build_exit_semantics_witness :
    (["x86_64-linux"] : List String).contains demoPkg.arch = true
    ∧ (statusWrites (packageBuildTrace demoPkg ["x86_64-linux"]
          (RunResult.completed (some 0) " /nix/store/abc\n" ""))).getLast?
        = some (PackageBuildStatus.Success (rustTrim " /nix/store/abc\n")) :=
  ⟨by decide,
   (build_exit_semantics demoPkg ["x86_64-linux"] (some 0)
     " /nix/store/abc\n" "" (by decide)).1 rfl⟩

/-! ## Commit discovery (`CommitInfo::build`, `CommitInfo::get_pkgs_list`
in `src/backend/mod.rs`)

The commit's mutable state is its `CommitBuildStatus` and its `packages`
vector.  `ShowResult` is the outcome of
`nix flake show --json --all-systems <url>`: a spawn failure, or a
completed run with its exit code, the parse of its stdout
(`String::from_utf8` + `serde_json::from_str`, `.error` carrying the
message of whichever failed) and its stderr. -/

inductive CommitBuildStatus where
  | Idle
  | GettingPackages
deriving DecidableEq

structure CommitState where
  status : CommitBuildStatus
  packages : List PackageEnum
deriving DecidableEq

inductive ShowResult where
  | spawnError (message : String)
  | completed (exitCode : Option Int) (stdoutParse : Except String JVal)
      (stderr : String)

/-- Translation of `CommitInfo::get_pkgs_list`, as a function of the commit state and the
external run: writes `GettingPackages` (inside the semaphore), then either
fails — non-zero exit, stdout that does not parse, or a parsed value with
no top-level object — leaving the status as written, or parses the object
tree, writes `Idle`, and returns the enumerated targets. -/
def getPkgsList (st : CommitState) (flakeUrl : String) (r : ShowResult) :
    CommitState × Except String (List PackageEnum) :=
  let st1 := { st with status := CommitBuildStatus.GettingPackages }
  match r with
  | .spawnError m => (st1, .error m)
  | .completed code parse _ =>
    if effectiveExitCode code ≠ 0 then
      (st1, .error "Failed to list packages in flake")
    else match parse with
      | .error m => (st1, .error m)
      | .ok v =>
        match v with
        | JVal.obj fields =>
          ({ st1 with status := CommitBuildStatus.Idle },
           .ok (parseVal flakeUrl (JVal.obj fields) ""))
        | _ => (st1, .error "No packages found in flake")

/-- The task spawned by `CommitInfo::build`: write `GettingPackages`, call
`get_pkgs_list`; on failure return immediately (`let Ok(pkgs) = … else
return`), otherwise append the targets, spawn their builds, and write
`Idle`. -/
def commitBuild (st : CommitState) (flakeUrl : String) (r : ShowResult) :
    CommitState :=
  let st1 := { st with status := CommitBuildStatus.GettingPackages }
  match getPkgsList st1 flakeUrl r with
  | (st2, .error _) => st2
  | (st2, .ok pkgs) =>
    { st2 with packages := st2.packages ++ pkgs,
               status := CommitBuildStatus.Idle }

/-- Does this run count as a discovery failure (the claim's three cases
plus a spawn failure)? -/
def showFailed (r : ShowResult) : Bool :=
  match r with
  | .spawnError _ => true
  | .completed code parse _ =>
    effectiveExitCode code ≠ 0 ||
      (match parse with
       | .error _ => true
       | .ok v => !v.isObj)

/-- C2 counterexample: after a failed discovery (external tool exits 1)
the commit's packages stay empty, but its status does *not* return to
`Idle` — `get_pkgs_list` only writes `Idle` on the success path and
`CommitInfo::build` returns early on `Err`. -/
theorem discovery_failure_status_stuck :
    (commitBuild ⟨CommitBuildStatus.Idle, []⟩ "u"
        (ShowResult.completed (some 1) (Except.ok (JVal.obj [])) "boom")).status
      ≠ CommitBuildStatus.Idle
    ∧ (commitBuild ⟨CommitBuildStatus.Idle, []⟩ "u"
        (ShowResult.completed (some 1) (Except.ok (JVal.obj [])) "boom")).packages
      = [] := by
  constructor <;> decide

/-- C2 (amended). For every commit whose discovery fails (spawn failure,
non-zero exit, malformed stdout, or no top-level object), the packages
list is unchanged (in particular stays empty) and the status is left at
`GettingPackages`; it is not reset to `Idle`. -/
theorem discovery_failure_leaves_packages (st : CommitState) (flakeUrl : String)
    (r : ShowResult) (h : showFailed r = true) :
    (commitBuild st flakeUrl r).packages = st.packages
    ∧ (commitBuild st flakeUrl r).status = CommitBuildStatus.GettingPackages := by
  cases r with
  | spawnError m => exact ⟨rfl, rfl⟩
  | completed code parse serr =>
    unfold showFailed at h
    dsimp only at h
    unfold commitBuild getPkgsList
    dsimp only
    by_cases hc : effectiveExitCode code ≠ 0
    · rw [if_pos hc]
      exact ⟨rfl, rfl⟩
    · rw [if_neg hc]
      cases parse with
      | error m => exact ⟨rfl, rfl⟩
      | ok v =>
        cases v <;> first
          | exact ⟨rfl, rfl⟩
          | (exfalso; simp [effectiveExitCode, JVal.isObj] at h hc; omega)

theorem discovery_failure_leaves_packages_witness :
    showFailed (ShowResult.completed (some 1)
        (Except.error "expected value at line 1") "err") = true
    ∧ (commitBuild ⟨CommitBuildStatus.Idle, []⟩ "u"
        (ShowResult.completed (some 1)
          (Except.error "expected value at line 1") "err")).packages = [] :=
  ⟨by decide,
   (discovery_failure_leaves_packages ⟨CommitBuildStatus.Idle, []⟩ "u"
     (ShowResult.completed (some 1)
       (Except.error "expected value at line 1") "err") (by decide)).1⟩

/-! ## The commit registry (`RepoInfo::get_or_create_commit`,
`CommitInfo::new` in `src/backend/mod.rs`)

The registry is the `commits` map of a `RepoNode`, hash → CommitNode.
`getOrCreateCommit` returns the updated registry, the node, and whether a
per-commit discovery/build task was spawned (`commit.clone().build()` runs
only on the insert path, after the map write). -/

/-- What `git2::Commit` provides: id, message (may be absent), time. -/
structure GitCommitData where
  hash : String
  message : Option String
  timeSecs : Int
deriving DecidableEq

/-- The immutable fields of a `CommitInfo` node. -/
structure CommitNode where
  hash : String
  message : String
  flake_url : String
  unix_secs : Int
deriving DecidableEq

/-- Translation of `CommitInfo::new`: message defaults to `"<no message>"` and is trimmed;
the flake URL pins the commit. -/
def commitInfoNew (repoUrl : String) (c : GitCommitData) : CommitNode :=
  { hash := c.hash,
    message := rustTrim (c.message.getD "<no message>"),
    flake_url := "git+https://" ++ repoUrl ++ "?rev=" ++ c.hash,
    unix_secs := c.timeSecs }

structure Registry where
  commits : List (String × CommitNode)
deriving DecidableEq

/-- Translation of `RepoInfo::get_or_create_commit`: under the map's write lock, return
the existing node for the hash if present; otherwise construct the node,
insert it, and (after releasing the lock) spawn its discovery/build task.
The `Bool` records whether that spawn happened. -/
def getOrCreateCommit (repoUrl : String) (reg : Registry) (c : GitCommitData) :
    Registry × CommitNode × Bool :=
  match reg.commits.lookup c.hash with
  | some node => (reg, node, false)
  | none =>
    let node := commitInfoNew repoUrl c
    (⟨(node.hash, node) :: reg.commits⟩, node, true)

/-- A sequence of `get_or_create_commit` calls (e.g. the same hash reached
from several branches); returns the final registry and, per call, the hash
and whether it spawned a task. -/
def runGetOrCreate (repoUrl : String) (reg : Registry) :
    List GitCommitData → Registry × List (String × Bool)
  | [] => (reg, [])
  | c :: cs =>
    let step := getOrCreateCommit repoUrl reg c
    let rest := runGetOrCreate repoUrl step.1 cs
    (rest.1, (c.hash, step.2.2) :: rest.2)

/-- How many of the calls spawned a discovery task for hash `h`. -/
def spawnCount (l : List (String × Bool)) (h : String) : Nat :=
  (l.filter (fun p => p.1 == h && p.2)).length

lemma getOrCreateCommit_mem_mono (repoUrl : String) (reg : Registry)
    (c : GitCommitData) (h : String)
    (hs : (reg.commits.lookup h).isSome) :
    (((getOrCreateCommit repoUrl reg c).1).commits.lookup h).isSome := by
  unfold getOrCreateCommit
  cases hl : reg.commits.lookup c.hash with
  | some node => exact hs
  | none =>
    dsimp only
    rw [List.lookup_cons]
    cases he : (h == (commitInfoNew repoUrl c).hash) with
    | true => rfl
    | false => exact hs

lemma spawnCount_zero_of_mem (repoUrl : String) (reg : Registry)
    (cs : List GitCommitData) (h : String)
    (hs : (reg.commits.lookup h).isSome) :
    spawnCount (runGetOrCreate repoUrl reg cs).2 h = 0 := by
  induction cs generalizing reg with
  | nil => rfl
  | cons c cs ih =>
    unfold runGetOrCreate spawnCount
    have hmono := getOrCreateCommit_mem_mono repoUrl reg c h hs
    dsimp only
    rw [List.filter_cons]
    by_cases hch : c.hash = h
    · subst hch
      have hspawn : (getOrCreateCommit repoUrl reg c).2.2 = false := by
        unfold getOrCreateCommit
        cases hl : reg.commits.lookup c.hash with
        | some node => rfl
        | none => rw [hl] at hs; simp at hs
      simp only [hspawn, beq_self_eq_true, Bool.and_false, if_false]
      exact ih _ hmono
    · rw [if_neg (by simp [hch])]
      exact ih _ hmono

lemma spawnCount_le_one (repoUrl : String) (reg : Registry)
    (cs : List GitCommitData) (h : String) :
    spawnCount (runGetOrCreate repoUrl reg cs).2 h ≤ 1 := by
  induction cs generalizing reg with
  | nil => exact Nat.zero_le 1
  | cons c cs ih =>
    unfold runGetOrCreate spawnCount
    dsimp only
    rw [List.filter_cons]
    by_cases hcase : (c.hash == h && (getOrCreateCommit repoUrl reg c).2.2) = true
    · rw [if_pos hcase]
      have hch : c.hash = h := beq_iff_eq.mp (Bool.and_elim_left hcase)
      have hspawned : (getOrCreateCommit repoUrl reg c).2.2 = true :=
        Bool.and_elim_right hcase
      have hnow : (((getOrCreateCommit repoUrl reg c).1).commits.lookup h).isSome := by
        unfold getOrCreateCommit at hspawned ⊢
        cases hl : reg.commits.lookup c.hash with
        | some node => rw [hl] at hspawned; simp at hspawned
        | none =>
          dsimp only
          rw [List.lookup_cons]
          have hbeq : (h == (commitInfoNew repoUrl c).hash) = true :=
            beq_iff_eq.mpr (by simp [commitInfoNew, hch])
          rw [hbeq]
          rfl
      have hz := spawnCount_zero_of_mem repoUrl _ cs h hnow
      unfold spawnCount at hz
      simp only [List.length_cons, hz]
      omega
    · rw [if_neg hcase]
      exact ih _

/-- C6. A hash already present in the commit map returns the stored node
unchanged (identical node, no state change, no task spawned); an absent
hash is inserted exactly once with its node built by `CommitInfo::new`,
and across any sequence of registrations each hash spawns at most one
discovery task. -/
theorem commit_registry_dedup (repoUrl : String) :
    (∀ (reg : Registry) (c : GitCommitData) (node : CommitNode),
      reg.commits.lookup c.hash = some node →
        getOrCreateCommit repoUrl reg c = (reg, node, false))
    ∧ (∀ (reg : Registry) (c : GitCommitData),
      reg.commits.lookup c.hash = none →
        (getOrCreateCommit repoUrl reg c).1.commits
            = (c.hash, commitInfoNew repoUrl c) :: reg.commits
          ∧ (getOrCreateCommit repoUrl reg c).2.1 = commitInfoNew repoUrl c
          ∧ (getOrCreateCommit repoUrl reg c).2.2 = true)
    ∧ (∀ (reg : Registry) (cs : List GitCommitData) (h : String),
      spawnCount (runGetOrCreate repoUrl reg cs).2 h ≤ 1) := by
  refine ⟨?_, ?_, ?_⟩
  · intro reg c node hl
    unfold getOrCreateCommit
    rw [hl]
  · intro reg c hl
    unfold getOrCreateCommit
    rw [hl]
    exact ⟨by simp [commitInfoNew], rfl, rfl⟩
  · intro reg cs h
    exact spawnCount_le_one repoUrl reg cs h

/-- A concrete registry already holding hash `"xyz"`. -/
def demoNode : CommitNode :=
  { hash := "xyz", message := "init", flake_url := "git+https://h/r?rev=xyz",
    unix_secs := 0 }

theorem commit_registry_dedup_witness :
    (Registry.mk [("xyz", demoNode)]).commits.lookup "xyz" = some demoNode
    ∧ getOrCreateCommit "h/r" (Registry.mk [("xyz", demoNode)])
        { hash := "xyz", message := some "init", timeSecs := 0 }
      = (Registry.mk [("xyz", demoNode)], demoNode, false) :=
  ⟨by decide,
   (commit_registry_dedup "h/r").1 (Registry.mk [("xyz", demoNode)])
     { hash := "xyz", message := some "init", timeSecs := 0 } demoNode (by decide)⟩

/-! ## Branch scan and parent walk (`thread_loop`,
`parse_commit_parents` in `src/backend/mod.rs`)

A git commit is a finite DAG node: a hash and a list of parent commits.
`parse_commit_parents` pushes all parents first, then recurses into each
with `depth - 1`; `thread_loop` seeds the walk with the branch tip and
`build_depth.saturating_sub(1)` (`Nat` subtraction is saturating), then
stores the hash sequence for the branch. -/

inductive GCommit where
  | mk (hash : String) (parents : List GCommit)

def GCommit.hash : GCommit → String
  | .mk h _ => h

def GCommit.parents : GCommit → List GCommit
  | .mk _ ps => ps

/-- Translation of `RepoInfoTrait::parse_commit_parents`: at depth 0, stop; otherwise
register every parent, then recurse into every parent with depth − 1.
Returns the hashes in registration order. -/
def parseCommitParents : Nat → GCommit → List String
  | 0, _ => []
  | d + 1, c =>
    c.parents.map GCommit.hash
      ++ (c.parents.map (parseCommitParents d)).flatten

/-- The hash sequence `thread_loop` stores for a branch whose tip is
`tip`: the tip first, then the parent walk to depth `build_depth − 1`. -/
def scanBranchHashes (tip : GCommit) (buildDepth : Nat) : List String :=
  tip.hash :: parseCommitParents (buildDepth - 1) tip

/-- Is the portion of history the walk visits a chain?  `linearTo d c`
requires at most one parent for every commit within walk depth `d` of `c`
(exactly the commits whose parents `parseCommitParents d` pushes); commits
beyond the walk depth are unconstrained. -/
def GCommit.linearTo : Nat → GCommit → Bool
  | 0, _ => true
  | _ + 1, .mk _ [] => true
  | d + 1, .mk _ [p] => p.linearTo d
  | _ + 1, .mk _ _ => false

/-- C1 counterexample: with `build_depth = 2` and a branch tip that is a
merge commit (two parents), the stored sequence has length 3 — the claimed
bound `|hashes[branch]| ≤ build_depth` fails, because
`parse_commit_parents` pushes *all* parents at every level. -/
theorem scan_depth_bound_fails_on_merge :
    scanBranchHashes
        (GCommit.mk "tip" [GCommit.mk "a" [], GCommit.mk "b" []]) 2
      = ["tip", "a", "b"]
    ∧ ¬ (scanBranchHashes
        (GCommit.mk "tip" [GCommit.mk "a" [], GCommit.mk "b" []]) 2).length ≤ 2 := by
  constructor <;> decide

lemma parseCommitParents_length_le (d : Nat) (c : GCommit)
    (hlin : c.linearTo d = true) : (parseCommitParents d c).length ≤ d := by
  induction d generalizing c with
  | zero => exact Nat.le_refl 0
  | succ d ih =>
    obtain ⟨h, ps⟩ := c
    match ps, hlin with
    | [], _ => simp [parseCommitParents, GCommit.parents]
    | [p], hlin =>
      have hp : p.linearTo d = true := hlin
      simp only [parseCommitParents, GCommit.parents, List.map_cons,
        List.map_nil, List.flatten, List.length_append, List.length_cons,
        List.length_nil, List.append_nil]
      have := ih p hp
      simp only [List.length_append] at this ⊢
      omega

/-- C1 (amended). After a successful `scan_branches` pass the stored
sequence for a branch always begins with the hash of the branch tip, with
no further assumptions; and when `build_depth ≥ 1` and the walked portion
of the history is linear (at most one parent for every commit within walk
depth `build_depth − 1` of the tip), its length is at most `build_depth`.
With merge commits inside the walk the bound fails (see the
counterexample): every parent of every visited commit is pushed, so a tip
with two parents at depth 2 already stores 3 hashes. -/
theorem scan_branch_tip_and_depth (tip : GCommit) (buildDepth : Nat) :
    (scanBranchHashes tip buildDepth).head? = some tip.hash
    ∧ (1 ≤ buildDepth → tip.linearTo (buildDepth - 1) = true →
        (scanBranchHashes tip buildDepth).length ≤ buildDepth) := by
  constructor
  · rfl
  · intro hd hlin
    unfold scanBranchHashes
    have := parseCommitParents_length_le (buildDepth - 1) tip hlin
    simp only [List.length_cons]
    omega

/-- A walk witness whose tip has the single parent `a` while `a` itself is
a merge commit: at `build_depth = 2` the walk stops before `a`'s parents,
so the walked portion is linear even though the full history is not. -/
def demoTip : GCommit :=
  GCommit.mk "tip" [GCommit.mk "a" [GCommit.mk "b" [], GCommit.mk "c" []]]

theorem scan_branch_tip_and_depth_witness :
    demoTip.linearTo 1 = true
    ∧ (scanBranchHashes demoTip 2).head? = some "tip"
    ∧ (scanBranchHashes demoTip 2).length ≤ 2 :=
  ⟨by decide,
   (scan_branch_tip_and_depth demoTip 2).1,
   (scan_branch_tip_and_depth demoTip 2).2 (by decide) (by decide)⟩

/-! ## The per-branch hash store (`RepoInfoTrait::new` and the poll loop
in `src/backend/mod.rs`)

`RepoInfo::new` inserts one (initially empty) hashes entry per configured
branch; the poll loop writes a branch's entry through
`branch_commit_hashes.get(&branch_name).unwrap()` only after checking
`self.repo.branches.contains(&branch_name)` (with the branch's remote name
already stripped of `origin/`).  Writes replace the value and never touch
the key set. -/

/-- The `branch_commit_hashes` map built by `RepoInfo::new`. -/
def mkBranchCommitHashes (branches : List String) :
    List (String × List String) :=
  branches.map (fun b => (b, []))

/-- One store into a branch's entry (value replaced, key set unchanged). -/
def storeBranchHashes (m : List (String × List String)) (b : String)
    (v : List String) : List (String × List String) :=
  m.map (fun kv => if kv.1 = b then (kv.1, v) else kv)

/-- Any sequence of poll-loop stores. -/
def applyUpdates (m : List (String × List String)) :
    List (String × List String) → List (String × List String)
  | [] => m
  | (b, v) :: us => applyUpdates (storeBranchHashes m b v) us

/-- The poll loop's treatment of one remote branch name (after the
`origin/` strip): names outside the monitored set are skipped before the
map is consulted; monitored names look their entry up (`.get(...)`), whose
`unwrap` panics exactly when the result is `none`. -/
def pollBranchLookup (repoBranches : List String)
    (store : List (String × List String)) (name : String) :
    Option (Option (List String)) :=
  if repoBranches.contains name then some (store.lookup name) else none

lemma lookup_mkBranchCommitHashes_isSome (branches : List String) (b : String)
    (hb : b ∈ branches) :
    ((mkBranchCommitHashes branches).lookup b).isSome = true := by
  induction branches with
  | nil => cases hb
  | cons a rest ih =>
    unfold mkBranchCommitHashes
    rw [List.map_cons, List.lookup_cons]
    cases hbeq : (b == a) with
    | true => rfl
    | false =>
      rcases List.mem_cons.mp hb with rfl | hmem
      · rw [beq_self_eq_true] at hbeq; cases hbeq
      · exact ih hmem

lemma lookup_storeBranchHashes_isSome (m : List (String × List String))
    (b x : String) (v : List String) :
    (((storeBranchHashes m b v).lookup x)).isSome = ((m.lookup x)).isSome := by
  induction m with
  | nil => rfl
  | cons kv rest ih =>
    obtain ⟨k, w⟩ := kv
    unfold storeBranchHashes
    rw [List.map_cons]
    by_cases hk : k = b
    · rw [if_pos (by simpa using hk)]
      rw [List.lookup_cons, List.lookup_cons]
      cases hbeq : (x == k) with
      | true => rfl
      | false => exact ih
    · rw [if_neg (by simpa using hk)]
      rw [List.lookup_cons, List.lookup_cons]
      cases hbeq : (x == k) with
      | true => rfl
      | false => exact ih

lemma lookup_applyUpdates_isSome (m : List (String × List String))
    (updates : List (String × List String)) (x : String) :
    (((applyUpdates m updates).lookup x)).isSome = ((m.lookup x)).isSome := by
  induction updates generalizing m with
  | nil => rfl
  | cons u us ih =>
    obtain ⟨b, v⟩ := u
    unfold applyUpdates
    rw [ih]
    exact lookup_storeBranchHashes_isSome m b x v

/-- C10. The `branch_commit_hashes.get(&branch_name).unwrap()` in the poll
loop never panics: the map holds an entry for every configured branch from
construction on, poll-loop stores never change the key set, and a name
reaches the lookup only if `repo.branches` contains it — so the looked-up
entry is always present (`pollBranchLookup` never returns `some none`). -/
theorem branch_lookup_never_panics (branches : List String)
    (updates : List (String × List String)) (name : String) :
    pollBranchLookup branches
        (applyUpdates (mkBranchCommitHashes branches) updates) name
      ≠ some none := by
  unfold pollBranchLookup
  by_cases hc : branches.contains name
  · rw [if_pos hc]
    have hmem : name ∈ branches := by simpa using hc
    have hsome : (((applyUpdates (mkBranchCommitHashes branches) updates).lookup
        name)).isSome = true := by
      rw [lookup_applyUpdates_isSome]
      exact lookup_mkBranchCommitHashes_isSome branches name hmem
    intro hcontra
    rw [Option.some_inj] at hcontra
    rw [hcontra] at hsome
    cases hsome
  · rw [if_neg hc]
    intro hcontra
    cases hcontra

theorem branch_lookup_never_panics_witness :
    pollBranchLookup ["main"]
        (applyUpdates (mkBranchCommitHashes ["main"]) [("main", ["abc"])]) "main"
      ≠ some none :=
  branch_lookup_never_panics ["main"] [("main", ["abc"])] "main"

/-! ## Startup validation (`main` in `src/main.rs`)

The binary's `main` validates every configured `supported_architectures`
entry against its own 4-entry `ARCHITECTURES` table before spawning any
repository worker; the first entry outside the table aborts startup with
an error (non-zero process exit). -/

/-- The validation loop of `main` (src/main.rs): the first entry not found
in the table returns the startup error. -/
def mainArchCheck : List String → Except String Unit
  | [] => .ok ()
  | a :: rest =>
    if MAIN_ARCHITECTURES.contains a then mainArchCheck rest
    else .error "Unsupported architecture in settings"

/-- Translation of `main` (src/main.rs): read settings, validate architectures, then
spawn one worker thread per configured repository.  Returns the names of
the spawned workers, or the startup error (which the process reports with
a non-zero exit code). -/
def mainStartup (supportedArchitectures : List String)
    (repoNames : List String) : Except String (List String) :=
  match mainArchCheck supportedArchitectures with
  | .error e => .error e
  | .ok _ => .ok repoNames

/-- The binary's 4-entry table is a subset of the 24 canonical tags. -/
lemma main_archs_subset : ∀ a ∈ MAIN_ARCHITECTURES, a ∈ ARCHITECTURES := by
  decide

lemma mainArchCheck_error_of_bad (l : List String) (e : String) (he : e ∈ l)
    (hbad : MAIN_ARCHITECTURES.contains e = false) :
    mainArchCheck l = .error "Unsupported architecture in settings" := by
  induction l with
  | nil => cases he
  | cons a rest ih =>
    unfold mainArchCheck
    rcases List.mem_cons.mp he with rfl | hmem
    · rw [if_neg (by intro hc; rw [hbad] at hc; exact Bool.noConfusion hc)]
    · by_cases hca : MAIN_ARCHITECTURES.contains a
      · rw [if_pos hca]; exact ih hmem
      · rw [if_neg hca]

/-- C4. If any configured `supported_architectures` entry is outside the
24 canonical tags, startup fails with the architecture error before any
worker is spawned (so the process exits non-zero).  (The validation in
`src/main.rs` checks against its 4-entry table, a subset of the 24, so
everything outside the 24 is rejected.) -/
theorem startup_rejects_unknown_architecture (supported repoNames : List String)
    (e : String) (he : e ∈ supported) (hbad : e ∉ ARCHITECTURES) :
    mainStartup supported repoNames
      = .error "Unsupported architecture in settings" := by
  have h4 : MAIN_ARCHITECTURES.contains e = false := by
    cases hc : MAIN_ARCHITECTURES.contains e with
    | false => rfl
    | true =>
      exact absurd (main_archs_subset e (by simpa using hc)) hbad
  unfold mainStartup
  rw [mainArchCheck_error_of_bad supported e he h4]

theorem startup_rejects_unknown_architecture_witness :
    "wasm32-wasi" ∈ ["x86_64-linux", "wasm32-wasi"]
    ∧ mainStartup ["x86_64-linux", "wasm32-wasi"] ["github.com_org_repo"]
      = .error "Unsupported architecture in settings" :=
  ⟨by decide,
   startup_rejects_unknown_architecture ["x86_64-linux", "wasm32-wasi"]
     ["github.com_org_repo"] "wasm32-wasi" (by decide) (by decide)⟩
